import Mathlib

/-!
Shallow embedding of the versioned protocol store
(`protocol_clipboard/utils/storage.py`, class `StorageManager`).

The on-disk state relevant to one protocol is modelled by `ProtoState`:
the optional legacy flat file `<model>/<protocol>.txt`, the map of
version files `<model>/<protocol>/<v>.txt` (an association list), and the
`versions.json` index, which on disk is either absent, present but
unparsable/empty, or a parsed JSON object with optional `versions` and
`current` keys.

Pure helpers (`_parse_version`, the `(major, minor)` sort, the decimal
rendering used by the f-string `f"{major}.{minor+1}"`) are embedded over
`List Char`, matching Python string semantics: `str.split('.')` splits a
character sequence on `'.'`, and `int(...)` strips surrounding
whitespace, accepts one optional sign, and then requires a non-empty
run of decimal digits.
-/

namespace ProtocolStore

/-- Characters stripped by Python `int()` before parsing (the common
whitespace characters: space, tab, newline, carriage return, vertical
tab, form feed). -/
def isPySpace (c : Char) : Bool :=
  c = ' ' || c = '\t' || c = '\n' || c = '\r' || c.toNat = 11 || c.toNat = 12

/-- Strip `isPySpace` characters from both ends, as Python `int()` does. -/
def trimChars (cs : List Char) : List Char :=
  ((cs.dropWhile isPySpace).reverse.dropWhile isPySpace).reverse

/-- Decimal value of a digit string, most significant digit first. -/
def digitsToNat (cs : List Char) : Nat :=
  cs.foldl (fun n c => n * 10 + (c.toNat - 48)) 0

/-- Embedding of Python `int(s)` on a character sequence: strip
whitespace, allow one optional sign, then a non-empty run of decimal
digits; `none` models the `ValueError` raised otherwise. -/
def pyIntChars (cs : List Char) : Option Int :=
  match trimChars cs with
  | [] => none
  | c :: rest =>
    if c = '-' then
      if rest ≠ [] ∧ rest.all Char.isDigit then some (-(digitsToNat rest : Int)) else none
    else if c = '+' then
      if rest ≠ [] ∧ rest.all Char.isDigit then some ((digitsToNat rest : Int)) else none
    else
      if (c :: rest).all Char.isDigit then some ((digitsToNat (c :: rest) : Int)) else none

/-- Embedding of Python `s.split('.')` on the character sequence of `s`.
`splitDot [] = [[]]` matches `"".split('.') == [""]`. -/
def splitDot (cs : List Char) : List (List Char) :=
  match cs with
  | [] => [[]]
  | c :: rest =>
    let r := splitDot rest
    if c = '.' then [] :: r
    else (c :: r.headD []) :: r.tail

/-- Embedding of `StorageManager._parse_version`: split on `'.'`, parse
the first field as the major and (when a second field exists) the second
field as the minor; any `ValueError`/`IndexError` yields `(0, 0)`. -/
def parse_version (version : String) : Int × Int :=
  match splitDot version.toList with
  | [] => (0, 0)
  | [p0] =>
    match pyIntChars p0 with
    | some a => (a, 0)
    | none => (0, 0)
  | p0 :: p1 :: _ =>
    match pyIntChars p0, pyIntChars p1 with
    | some a, some b => (a, b)
    | _, _ => (0, 0)

/-- The sort key order used by `sorted(versions, key=self._parse_version)`:
Python tuple comparison on the parsed `(major, minor)` pairs. -/
def versionLE (a b : String) : Bool :=
  let pa := parse_version a
  let pb := parse_version b
  decide (pa.1 < pb.1) || (decide (pa.1 = pb.1) && decide (pa.2 ≤ pb.2))

/-- Embedding of `sorted(versions, key=self._parse_version)`: a stable
sort by the `(major, minor)` key order (Python `sorted` is stable, and a
stable sort is uniquely determined by the key order, so any stable sort
is a faithful model; `insertionSort` is stable). -/
def sortVersions (l : List String) : List String :=
  l.insertionSort (fun a b => versionLE a b = true)

/-- The decimal digit characters. -/
def digitChar (n : Nat) : Char := Char.ofNat (48 + n)

/-- Fuel-based worker for decimal rendering (structural recursion so
that concrete instances reduce inside the kernel); `fuel > n` always
suffices since `n / 10 < n` for `n ≥ 10`. -/
def natToCharsAux (fuel : Nat) (n : Nat) : List Char :=
  match fuel with
  | 0 => []
  | fuel + 1 =>
    if n < 10 then [digitChar n]
    else natToCharsAux fuel (n / 10) ++ [digitChar (n % 10)]

/-- Decimal rendering of a natural number, most significant digit
first, as produced by a Python f-string for a non-negative int. -/
def natToChars (n : Nat) : List Char := natToCharsAux (n + 1) n

/-- Decimal rendering of an integer as a Python f-string renders an
int: a minus sign followed by digits for negatives, digits otherwise. -/
def intToChars : Int → List Char
  | Int.ofNat n => natToChars n
  | Int.negSucc n => '-' :: natToChars (n + 1)

/-- Embedding of the f-string `f"{a}.{b}"` on integers, used by
`create_new_version` to build the candidate version id. -/
def mkVersion (a b : Int) : String := String.mk (intToChars a ++ '.' :: intToChars b)

/-! ### On-disk state of one protocol and the versioning operations -/

/-- Parsed content of a `versions.json` object.  Each JSON key may be
missing; reads in the source go through `data.get('versions', [])` and
`data.get('current', "1.0")`. -/
structure VersionsData where
  versions : Option (List String)
  current : Option String
deriving DecidableEq

/-- The `versions` list as `data.get('versions', [])` reads it. -/
def VersionsData.getVersions (d : VersionsData) : List String := d.versions.getD []

/-- The `current` pointer as `data.get('current', "1.0")` reads it. -/
def VersionsData.getCurrent (d : VersionsData) : String := d.current.getD "1.0"

/-- The on-disk condition of the `versions.json` file: absent, present
but empty/unparsable (every read of it fails with a logged soft error),
or parsed into a JSON object. -/
inductive VFile where
  | absent
  | corrupt
  | parsed (d : VersionsData)
deriving DecidableEq

/-- On-disk state of one `model/protocol` pair: the legacy flat file
`<model>/<protocol>.txt` (with its content when present), the version
files `<model>/<protocol>/<v>.txt` as an association list from version
id to content, and the `versions.json` index file. -/
structure ProtoState where
  legacy : Option String
  vfiles : List (String × String)
  index : VFile
deriving DecidableEq

/-- Read a version file: `some` content when the file exists. -/
def getFile : List (String × String) → String → Option String
  | [], _ => none
  | (k, w) :: rest, v => if k = v then some w else getFile rest v

/-- Overwrite-or-create a version file (`write_text` / the atomic
temp-file-then-replace write). -/
def setFile : List (String × String) → String → String → List (String × String)
  | [], v, c => [(v, c)]
  | (k, w) :: rest, v, c => if k = v then (v, c) :: rest else (k, w) :: setFile rest v c

/-- Embedding of `StorageManager.ensure_protocol_versions`.  If
`versions.json` exists (even unparsable), return at once.  Otherwise,
if the legacy flat file exists, migrate its content into version
`"1.0"`, write the default index and delete the legacy file; else
create an empty `"1.0"` version and the same default index. -/
def ensure_protocol_versions (s : ProtoState) : ProtoState :=
  match s.index with
  | VFile.parsed _ => s
  | VFile.corrupt => s
  | VFile.absent =>
    match s.legacy with
    | some content =>
      { legacy := none,
        vfiles := setFile s.vfiles "1.0" content,
        index := VFile.parsed ⟨some ["1.0"], some "1.0"⟩ }
    | none =>
      { legacy := none,
        vfiles := setFile s.vfiles "1.0" "",
        index := VFile.parsed ⟨some ["1.0"], some "1.0"⟩ }

/-- Embedding of `StorageManager.list_versions`.  The second component
is the resulting on-disk state: the source performs no write on this
path, so the state passes through unchanged. -/
def list_versions (s : ProtoState) : List String × ProtoState :=
  match s.index with
  | VFile.absent => ([], s)
  | VFile.corrupt => ([], s)
  | VFile.parsed d => (sortVersions d.getVersions, s)

/-- Embedding of `StorageManager.get_current_version`.  Returns
`"1.0"` when the index file is absent or unreadable; when `current` is
not a member of a non-empty `versions` list, returns `versions[0]`
(the first element of the stored list).  No write is performed. -/
def get_current_version (s : ProtoState) : String × ProtoState :=
  match s.index with
  | VFile.absent => ("1.0", s)
  | VFile.corrupt => ("1.0", s)
  | VFile.parsed d =>
    if d.getCurrent ∉ d.getVersions ∧ d.getVersions ≠ [] then
      (d.getVersions.headD "", s)
    else
      (d.getCurrent, s)

/-- Embedding of `StorageManager.set_current_version`: fails when the
index file is absent or unreadable or when `version` is not listed;
otherwise rewrites the index with `data['current'] = version`. -/
def set_current_version (s : ProtoState) (version : String) : Bool × ProtoState :=
  match s.index with
  | VFile.absent => (false, s)
  | VFile.corrupt => (false, s)
  | VFile.parsed d =>
    if version ∈ d.getVersions then
      (true, { s with index := VFile.parsed { d with current := some version } })
    else
      (false, s)

/-- Content selection of `create_new_version`: copied from
`base_version` when it is truthy and a member of the (sorted) list and
its file exists; when no base is given, copied from
`data.get('current', versions[-1])` when that file exists; empty
otherwise. -/
def newContent (s : ProtoState) (d : VersionsData) (versions : List String)
    (base : Option String) : String :=
  match base with
  | some bv => if bv ≠ "" ∧ bv ∈ versions then (getFile s.vfiles bv).getD "" else ""
  | none => (getFile s.vfiles (d.current.getD (versions.getLastD ""))).getD ""

/-- The id chosen by `create_new_version` from the sorted version list
(evaluated only when that list is non-empty, where `getLastD` is
`versions[-1]`): increment the minor of the last (highest) version; if
that id is already listed, skip to minor + 2. -/
def nextVersionId (versions : List String) : String :=
  let p := parse_version (versions.getLastD "")
  let cand := mkVersion p.1 (p.2 + 1)
  if cand ∈ versions then mkVersion p.1 (p.2 + 2) else cand

/-- Embedding of `StorageManager.create_new_version`.  Fails (returns
`none`, state unchanged) when the index file is absent or unreadable or
the version list is empty.  Otherwise writes the new version file and
rewrites the index with `data['versions']` set to the sorted list plus
the new id appended (`current` is left as it was). -/
def create_new_version (s : ProtoState) (base : Option String) :
    Option String × ProtoState :=
  match s.index with
  | VFile.absent => (none, s)
  | VFile.corrupt => (none, s)
  | VFile.parsed d =>
    let versions := sortVersions d.getVersions
    if versions = [] then (none, s)
    else
      let newVersion := nextVersionId versions
      let content := newContent s d versions base
      (some newVersion,
        { s with
            vfiles := setFile s.vfiles newVersion content,
            index := VFile.parsed { d with versions := some (versions ++ [newVersion]) } })

/-- Universal-newline translation performed on text-mode reads:
`Path.read_text` opens the file with `newline=None`, so every
`"\r\n"` pair and every lone `'\r'` in the stored text is returned as
`'\n'` (while `write_text` writes `'\r'` through unchanged on the
assumed POSIX platform). -/
def uninlChars : List Char → List Char
  | [] => []
  | c :: rest =>
    if c = '\r' then
      match rest with
      | [] => ['\n']
      | c2 :: rest2 =>
        if c2 = '\n' then '\n' :: uninlChars rest2 else '\n' :: uninlChars (c2 :: rest2)
    else c :: uninlChars rest

/-- Universal-newline translation on strings, as `Path.read_text`
returns file content. -/
def uninl (s : String) : String := String.mk (uninlChars s.toList)

/-- Embedding of `StorageManager.read_version`: ensure the version
structure exists, resolve a missing version argument to the current
pointer, then return the file content as `read_text` returns it —
through the universal-newline translation — or the empty string when
the file is missing. -/
def read_version (s : ProtoState) (version : Option String) : String × ProtoState :=
  let s1 := ensure_protocol_versions s
  let v := match version with
    | some v => v
    | none => (get_current_version s1).1
  (((getFile s1.vfiles v).map uninl).getD "", s1)

/-- Embedding of `StorageManager.write_version`: ensure the version
structure exists, then atomically write the content to that version's
file (the index is not updated). -/
def write_version (s : ProtoState) (version content : String) : ProtoState :=
  let s1 := ensure_protocol_versions s
  { s1 with vfiles := setFile s1.vfiles version content }

/-! ### Per-model order list and deletion operations -/

/-- The on-disk condition of a per-model `order.json` file. -/
inductive OrderFile where
  | absent
  | corrupt
  | parsed (protocols : Option (List String))
deriving DecidableEq

/-- Embedding of `StorageManager.load_protocol_order`: when the file is
absent it is auto-created with an empty list (`save_protocol_order`);
when empty/unparsable the read soft-fails with `[]` and the file is
left as it is. -/
def load_protocol_order (s : OrderFile) : List String × OrderFile :=
  match s with
  | OrderFile.absent => ([], OrderFile.parsed (some []))
  | OrderFile.corrupt => ([], OrderFile.corrupt)
  | OrderFile.parsed p => (p.getD [], OrderFile.parsed p)

/-- State touched by `delete_model`: the parsed `models.json` list and
the set of model directories present on disk. -/
structure ModelsState where
  models : List String
  dirs : List String
deriving DecidableEq

/-- Embedding of `StorageManager.delete_model` for a state whose
`models.json` parses.  `rmtreeFails` injects an `OSError` from
`shutil.rmtree` (the only fallible step modelled): the exception is
caught and turned into `False` after the order list was already
rewritten. -/
def delete_model (s : ModelsState) (name : String) (rmtreeFails : Bool) :
    Bool × ModelsState :=
  if name ∈ s.models then
    let s1 : ModelsState := { s with models := s.models.erase name }
    if name ∈ s1.dirs then
      if rmtreeFails then (false, s1)
      else (true, { s1 with dirs := s1.dirs.erase name })
    else (true, s1)
  else (false, s)

/-- State touched by `delete_protocol` inside one model: the parsed
`order.json` list, the protocol directories, and the legacy flat
files. -/
structure ProtoOrderState where
  protocols : List String
  dirs : List String
  legacyFiles : List String
deriving DecidableEq

/-- Embedding of `StorageManager.delete_protocol` for a model whose
`order.json` parses.  `rmtreeFails` injects an `OSError` from
`shutil.rmtree` on the versioned directory: the exception is caught and
turned into `False` after the order list was already rewritten, and the
legacy file is then not removed either. -/
def delete_protocol (s : ProtoOrderState) (name : String) (rmtreeFails : Bool) :
    Bool × ProtoOrderState :=
  if name ∈ s.protocols then
    let s1 : ProtoOrderState := { s with protocols := s.protocols.erase name }
    if name ∈ s1.dirs then
      if rmtreeFails then (false, s1)
      else (true, { s1 with dirs := s1.dirs.erase name,
                            legacyFiles := s1.legacyFiles.erase name })
    else (true, { s1 with legacyFiles := s1.legacyFiles.erase name })
  else (false, s)

/-! ### The version-index invariant -/

/-- Invariant on a parsed version index: the effective `current`
pointer is listed whenever the `versions` list is non-empty, and the
list has no duplicates. -/
def IndexInv (d : VersionsData) : Prop :=
  (d.getVersions ≠ [] → d.getCurrent ∈ d.getVersions) ∧ d.getVersions.Nodup

/-- Invariant on a protocol state: whatever `versions.json` parses to
satisfies `IndexInv`. -/
def StateInv (s : ProtoState) : Prop :=
  ∀ d, s.index = VFile.parsed d → IndexInv d


/-! ### Facts about the decimal rendering and the version parser -/

/-- All facts about decimal digit characters needed below, checked by
enumeration over `d < 10`. -/
theorem digitChar_facts : ∀ d, d < 10 →
    (digitChar d).toNat = 48 + d ∧ Char.isDigit (digitChar d) = true ∧
    isPySpace (digitChar d) = false ∧ digitChar d ≠ '.' ∧
    digitChar d ≠ '-' ∧ digitChar d ≠ '+' := by decide

theorem digitsToNat_append (xs : List Char) (c : Char) :
    digitsToNat (xs ++ [c]) = digitsToNat xs * 10 + (c.toNat - 48) := by
  simp [digitsToNat, List.foldl_append]

theorem natToCharsAux_roundtrip :
    ∀ fuel n, n < fuel → digitsToNat (natToCharsAux fuel n) = n := by
  intro fuel
  induction fuel with
  | zero => omega
  | succ fuel ih =>
    intro n hn
    rw [natToCharsAux]
    by_cases h : n < 10
    · simp [h, digitsToNat, (digitChar_facts n h).1]
    · have hdiv : n / 10 < n := Nat.div_lt_self (by omega) (by omega)
      have hmod : n % 10 < 10 := Nat.mod_lt _ (by omega)
      simp only [h, if_false, digitsToNat_append, ih (n / 10) (by omega),
        (digitChar_facts _ hmod).1]
      omega

theorem digitsToNat_natToChars (n : Nat) : digitsToNat (natToChars n) = n :=
  natToCharsAux_roundtrip (n + 1) n (by omega)

theorem natToCharsAux_mem :
    ∀ fuel n c, c ∈ natToCharsAux fuel n → ∃ d, d < 10 ∧ c = digitChar d := by
  intro fuel
  induction fuel with
  | zero => intro n c h; simp [natToCharsAux] at h
  | succ fuel ih =>
    intro n c h
    rw [natToCharsAux] at h
    by_cases h10 : n < 10
    · simp [h10] at h
      exact ⟨n, h10, h⟩
    · simp [h10, List.mem_append] at h
      rcases h with h | h
      · exact ih _ _ h
      · exact ⟨n % 10, Nat.mod_lt _ (by omega), h⟩

theorem natToChars_mem {n : Nat} {c : Char} (h : c ∈ natToChars n) :
    ∃ d, d < 10 ∧ c = digitChar d :=
  natToCharsAux_mem (n + 1) n c h

theorem natToChars_ne_nil (n : Nat) : natToChars n ≠ [] := by
  rw [natToChars, natToCharsAux]
  by_cases h : n < 10 <;> simp [h]

theorem natToChars_all_digits (n : Nat) : (natToChars n).all Char.isDigit = true := by
  rw [List.all_eq_true]
  intro c hc
  obtain ⟨d, hd, rfl⟩ := natToChars_mem hc
  exact (digitChar_facts d hd).2.1

theorem dropWhile_eq_self_of_none {p : Char → Bool} :
    ∀ l : List Char, (∀ c ∈ l, p c = false) → l.dropWhile p = l := by
  intro l h
  cases l with
  | nil => rfl
  | cons c t => simp [List.dropWhile_cons, h c (by simp)]

theorem trimChars_eq_self {l : List Char} (h : ∀ c ∈ l, isPySpace c = false) :
    trimChars l = l := by
  rw [trimChars, dropWhile_eq_self_of_none l h,
    dropWhile_eq_self_of_none l.reverse (fun c hc => h c (List.mem_reverse.1 hc)),
    List.reverse_reverse]

theorem pyIntChars_natToChars (n : Nat) : pyIntChars (natToChars n) = some (n : Int) := by
  have htrim : trimChars (natToChars n) = natToChars n := by
    refine trimChars_eq_self (fun x hx => ?_)
    obtain ⟨d, hd, rfl⟩ := natToChars_mem hx
    exact (digitChar_facts d hd).2.2.1
  obtain ⟨c, cs, hcons⟩ := List.exists_cons_of_ne_nil (natToChars_ne_nil n)
  have hchead : c ∈ natToChars n := by rw [hcons]; exact List.mem_cons_self c cs
  obtain ⟨d, hd, hc⟩ := natToChars_mem hchead
  have hminus : c ≠ '-' := by rw [hc]; exact (digitChar_facts d hd).2.2.2.2.1
  have hplus : c ≠ '+' := by rw [hc]; exact (digitChar_facts d hd).2.2.2.2.2
  have hdig : (c :: cs).all Char.isDigit = true := by
    rw [← hcons]; exact natToChars_all_digits n
  have hval : digitsToNat (c :: cs) = n := by rw [← hcons]; exact digitsToNat_natToChars n
  unfold pyIntChars
  rw [htrim, hcons]
  simp [hminus, hplus, hdig, hval]

theorem pyIntChars_intToChars : ∀ i : Int, pyIntChars (intToChars i) = some i := by
  intro i
  cases i with
  | ofNat n => exact pyIntChars_natToChars n
  | negSucc n =>
    have htrim : trimChars ('-' :: natToChars (n + 1)) = '-' :: natToChars (n + 1) := by
      refine trimChars_eq_self (fun c hc => ?_)
      rcases List.mem_cons.1 hc with rfl | hc
      · decide
      · obtain ⟨d, hd, rfl⟩ := natToChars_mem hc
        exact (digitChar_facts d hd).2.2.1
    have hdig := natToChars_all_digits (n + 1)
    have hne := natToChars_ne_nil (n + 1)
    have hval := digitsToNat_natToChars (n + 1)
    show pyIntChars ('-' :: natToChars (n + 1)) = some (Int.negSucc n)
    unfold pyIntChars
    rw [htrim]
    have hgoal : -((digitsToNat (natToChars (n + 1)) : Nat) : Int) = Int.negSucc n := by
      rw [hval, Int.negSucc_eq]
      push_cast
      ring
    simp [hne, hgoal, List.all_eq_true]
    exact List.all_eq_true.1 hdig

theorem intToChars_no_dot {i : Int} {c : Char} (h : c ∈ intToChars i) : c ≠ '.' := by
  cases i with
  | ofNat n =>
    obtain ⟨d, hd, rfl⟩ := natToChars_mem h
    exact (digitChar_facts d hd).2.2.2.1
  | negSucc n =>
    rcases List.mem_cons.1 h with rfl | h
    · decide
    · obtain ⟨d, hd, rfl⟩ := natToChars_mem h
      exact (digitChar_facts d hd).2.2.2.1

theorem splitDot_no_dot : ∀ l : List Char, (∀ c ∈ l, c ≠ '.') → splitDot l = [l] := by
  intro l
  induction l with
  | nil => intro _; rfl
  | cons c t ih =>
    intro h
    rw [splitDot]
    simp only [ih (fun x hx => h x (by simp [hx]))]
    simp [h c (by simp)]

theorem splitDot_append_dot (a b : List Char) (ha : ∀ c ∈ a, c ≠ '.') :
    splitDot (a ++ '.' :: b) = a :: splitDot b := by
  induction a with
  | nil => simp [splitDot]
  | cons c t ih =>
    rw [List.cons_append, splitDot, ih (fun x hx => ha x (by simp [hx]))]
    simp [ha c (by simp)]

theorem parse_mkVersion (a b : Int) : parse_version (mkVersion a b) = (a, b) := by
  have hsplit : splitDot (intToChars a ++ '.' :: intToChars b) =
      [intToChars a, intToChars b] := by
    rw [splitDot_append_dot _ _ (fun c hc => intToChars_no_dot hc),
      splitDot_no_dot _ (fun c hc => intToChars_no_dot hc)]
  have htl : (mkVersion a b).toList = intToChars a ++ '.' :: intToChars b := rfl
  rw [parse_version, htl, hsplit]
  simp [pyIntChars_intToChars]

/-! ### Facts about the version order and the stable sort -/

theorem versionLE_refl (a : String) : versionLE a a = true := by
  simp [versionLE]

theorem versionLE_total (a b : String) : versionLE a b = true ∨ versionLE b a = true := by
  simp only [versionLE, Bool.or_eq_true, Bool.and_eq_true, decide_eq_true_eq]
  omega

theorem versionLE_trans {a b c : String} (h1 : versionLE a b = true)
    (h2 : versionLE b c = true) : versionLE a c = true := by
  simp only [versionLE, Bool.or_eq_true, Bool.and_eq_true, decide_eq_true_eq] at *
  omega

instance : IsTotal String (fun a b => versionLE a b = true) :=
  ⟨versionLE_total⟩

instance : IsTrans String (fun a b => versionLE a b = true) :=
  ⟨fun _ _ _ => versionLE_trans⟩

theorem sortVersions_perm (l : List String) : List.Perm (sortVersions l) l :=
  List.perm_insertionSort _ l

theorem sortVersions_sorted (l : List String) :
    (sortVersions l).Pairwise (fun a b => versionLE a b = true) :=
  List.sorted_insertionSort _ l

/-- In a list sorted by a reflexive relation, every element relates to
the last one. -/
theorem pairwise_rel_getLast {R : String → String → Prop}
    (hrefl : ∀ a, R a a) :
    ∀ (l : List String) (h : l ≠ []), l.Pairwise R → ∀ x ∈ l, R x (l.getLast h) := by
  intro l
  induction l with
  | nil => intro h; exact absurd rfl h
  | cons a t ih =>
    intro h hp x hx
    cases t with
    | nil =>
      simp at hx
      subst hx
      exact hrefl x
    | cons b u =>
      rw [List.getLast_cons (by simp)]
      rcases List.mem_cons.1 hx with rfl | hx
      · exact (List.pairwise_cons.1 hp).1 _ (List.getLast_mem _)
      · exact ih (by simp) (List.pairwise_cons.1 hp).2 x hx

/-- For a non-empty list, `getLastD ""` is `getLast`. -/
theorem getLastD_eq_getLast {l : List String} (h : l ≠ []) :
    l.getLastD "" = l.getLast h := by
  rw [List.getLastD_eq_getLast?, List.getLast?_eq_getLast l h, Option.getD_some]

/-- In a non-empty list sorted by a reflexive relation, every element
relates to `getLastD`. -/
theorem pairwise_rel_getLastD {R : String → String → Prop}
    (hrefl : ∀ a, R a a) (l : List String) (h : l ≠ [])
    (hp : l.Pairwise R) (x : String) (hx : x ∈ l) : R x (l.getLastD "") := by
  rw [getLastD_eq_getLast h]
  exact pairwise_rel_getLast hrefl l h hp x hx

/-- The successor id built from the last element of a sorted version
list is never already a member: its key is strictly above the maximum. -/
theorem mkVersion_succ_not_mem (l : List String) (h : l ≠ [])
    (hp : l.Pairwise (fun a b => versionLE a b = true)) :
    mkVersion (parse_version (l.getLastD "")).1 ((parse_version (l.getLastD "")).2 + 1) ∉ l := by
  intro hmem
  have hle := pairwise_rel_getLastD (R := fun a b => versionLE a b = true)
    versionLE_refl l h hp _ hmem
  simp only [versionLE, parse_mkVersion, Bool.or_eq_true, Bool.and_eq_true,
    decide_eq_true_eq] at hle
  omega

/-! ### Facts about the operations -/

theorem getFile_setFile_self (fs : List (String × String)) (v c : String) :
    getFile (setFile fs v c) v = some c := by
  induction fs with
  | nil => simp [setFile, getFile]
  | cons kv rest ih =>
    obtain ⟨k, w⟩ := kv
    by_cases h : k = v
    · simp [setFile, getFile, h]
    · simp [setFile, getFile, h, ih]

theorem ensure_index_ne_absent (s : ProtoState) :
    (ensure_protocol_versions s).index ≠ VFile.absent := by
  cases hidx : s.index with
  | parsed d => simp [ensure_protocol_versions, hidx]
  | corrupt => simp [ensure_protocol_versions, hidx]
  | absent => cases hleg : s.legacy <;> simp [ensure_protocol_versions, hidx, hleg]

theorem ensure_of_ne_absent {s : ProtoState} (h : s.index ≠ VFile.absent) :
    ensure_protocol_versions s = s := by
  cases hidx : s.index with
  | parsed d => simp [ensure_protocol_versions, hidx]
  | corrupt => simp [ensure_protocol_versions, hidx]
  | absent => exact absurd hidx h

/-- The id chosen from a sorted non-empty version list is the minor
successor of the last element, and it is never already listed (so the
`minor + 2` branch of the source is in fact unreachable). -/
theorem nextVersionId_spec (l : List String) (h : l ≠ [])
    (hp : l.Pairwise (fun a b => versionLE a b = true)) :
    nextVersionId l =
      mkVersion (parse_version (l.getLastD "")).1 ((parse_version (l.getLastD "")).2 + 1) ∧
    nextVersionId l ∉ l := by
  have hnm := mkVersion_succ_not_mem l h hp
  refine ⟨by unfold nextVersionId; exact if_neg hnm, ?_⟩
  unfold nextVersionId
  rw [if_neg hnm]
  exact hnm

/-! ### Claim theorems -/

/-- Universal-newline translation is the identity on strings without a
carriage return. -/
theorem uninlChars_eq_self : ∀ cs : List Char, '\r' ∉ cs → uninlChars cs = cs := by
  intro cs
  induction cs with
  | nil => intro _; rfl
  | cons c rest ih =>
    intro h
    have hc : c ≠ '\r' := fun he => h (he ▸ List.mem_cons_self c rest)
    have hr : '\r' ∉ rest := fun hm => h (List.mem_cons_of_mem c hm)
    unfold uninlChars
    rw [if_neg hc, ih hr]

/-- C6 counterexample: writing the content `"a\r"` and reading it back
returns `"a\n"` — `read_text` opens the file in universal-newline mode,
so a stored carriage return is translated and the round trip is not the
identity on every content string. -/
theorem C6_counterexample :
    (read_version (write_version ⟨none, [], VFile.absent⟩ "2.0" "a\r") (some "2.0")).1
      = "a\n" ∧
    ("a\n" : String) ≠ "a\r" := by
  decide

/-- C6 (amended): writing a content string with `write_version` and
reading the same version back with `read_version` returns the
universal-newline translation of that content (each `"\r\n"` and each
lone `'\r'` comes back as `'\n'`); in particular it returns exactly the
content — including the empty string and unicode text — whenever the
content contains no carriage return. -/
theorem C6_write_read_roundtrip (s : ProtoState) (v content : String) :
    (read_version (write_version s v content) (some v)).1 = uninl content ∧
    ('\r' ∉ content.toList →
      (read_version (write_version s v content) (some v)).1 = content) := by
  have h2 : (write_version s v content).index ≠ VFile.absent :=
    ensure_index_ne_absent s
  have hmain : (read_version (write_version s v content) (some v)).1 = uninl content := by
    unfold read_version
    rw [ensure_of_ne_absent h2]
    unfold write_version
    simp [getFile_setFile_self]
  refine ⟨hmain, fun hcr => ?_⟩
  rw [hmain]
  obtain ⟨data⟩ := content
  show String.mk (uninlChars data) = String.mk data
  rw [uninlChars_eq_self data hcr]

/-- Witness for C6 at concrete inputs: unicode content without a
carriage return round-trips exactly. -/
theorem C6_write_read_roundtrip_witness :
    (read_version (write_version ⟨none, [], VFile.absent⟩ "2.0" "héllo\n∀") (some "2.0")).1
      = "héllo\n∀" :=
  (C6_write_read_roundtrip ⟨none, [], VFile.absent⟩ "2.0" "héllo\n∀").2 (by decide)

/-- C7: for a protocol with a legacy flat file holding content `c` and
no `versions.json`, `ensure_protocol_versions` creates the `"1.0"`
version file with exactly that content, writes the index
`{"versions": ["1.0"], "current": "1.0"}`, and deletes the legacy
file. -/
theorem C7_legacy_migration (s : ProtoState) (c : String)
    (hidx : s.index = VFile.absent) (hleg : s.legacy = some c) :
    getFile (ensure_protocol_versions s).vfiles "1.0" = some c ∧
    (ensure_protocol_versions s).index = VFile.parsed ⟨some ["1.0"], some "1.0"⟩ ∧
    (ensure_protocol_versions s).legacy = none := by
  simp [ensure_protocol_versions, hidx, hleg, getFile_setFile_self]

/-- Witness for C7 at a concrete state: a legacy file containing
`"hello"` and no index. -/
theorem C7_legacy_migration_witness :
    getFile (ensure_protocol_versions ⟨some "hello", [], VFile.absent⟩).vfiles "1.0"
      = some "hello" ∧
    (ensure_protocol_versions ⟨some "hello", [], VFile.absent⟩).index
      = VFile.parsed ⟨some ["1.0"], some "1.0"⟩ ∧
    (ensure_protocol_versions ⟨some "hello", [], VFile.absent⟩).legacy = none :=
  C7_legacy_migration ⟨some "hello", [], VFile.absent⟩ "hello" rfl rfl

/-- C8: `ensure_protocol_versions` is idempotent — a second call leaves
the on-disk state exactly as the first call left it. -/
theorem C8_ensure_idempotent (s : ProtoState) :
    ensure_protocol_versions (ensure_protocol_versions s) = ensure_protocol_versions s :=
  ensure_of_ne_absent (ensure_index_ne_absent s)

/-- C9 counterexample: on a protocol with no `versions.json`, both
`list_versions` and `get_current_version` leave the index file absent —
no default index is created, contradicting the claim that these reads
persist a default index. -/
theorem C9_counterexample :
    (list_versions ⟨none, [], VFile.absent⟩).2.index = VFile.absent ∧
    (get_current_version ⟨none, [], VFile.absent⟩).2.index = VFile.absent ∧
    (list_versions ⟨none, [], VFile.absent⟩).1 = [] ∧
    (get_current_version ⟨none, [], VFile.absent⟩).1 = "1.0" := by
  decide

/-- C9 (amended): reading a missing order list does create and persist
an empty one, but `list_versions` and `get_current_version` on a
protocol with no `versions.json` merely return the default value
(`[]` / `"1.0"`) and leave the on-disk state untouched. -/
theorem C9_autovivification (s : ProtoState) (hidx : s.index = VFile.absent) :
    load_protocol_order OrderFile.absent = ([], OrderFile.parsed (some [])) ∧
    (list_versions s).1 = [] ∧ (list_versions s).2 = s ∧
    (get_current_version s).1 = "1.0" ∧ (get_current_version s).2 = s := by
  refine ⟨rfl, ?_, ?_, ?_, ?_⟩ <;> simp [list_versions, get_current_version, hidx]

/-- Witness for C9 at a concrete protocol state with no index. -/
theorem C9_autovivification_witness :
    load_protocol_order OrderFile.absent = ([], OrderFile.parsed (some [])) ∧
    (list_versions ⟨none, [], VFile.absent⟩).1 = [] ∧
    (list_versions ⟨none, [], VFile.absent⟩).2 = ⟨none, [], VFile.absent⟩ ∧
    (get_current_version ⟨none, [], VFile.absent⟩).1 = "1.0" ∧
    (get_current_version ⟨none, [], VFile.absent⟩).2 = ⟨none, [], VFile.absent⟩ :=
  C9_autovivification ⟨none, [], VFile.absent⟩ rfl

/-- C10: `delete_model` (and likewise `delete_protocol`) rewrites the
persisted order list before attempting the directory removal, so when
`shutil.rmtree` fails the call returns `False` while the name is
already gone from the persisted order and the directory is still
present — the error path does not restore the prior state. -/
theorem C10_delete_error_path (ms : ModelsState) (ps : ProtoOrderState) (m p : String)
    (hm : m ∈ ms.models) (hmd : m ∈ ms.dirs)
    (hp : p ∈ ps.protocols) (hpd : p ∈ ps.dirs) :
    (delete_model ms m true).1 = false ∧
    (delete_model ms m true).2.models = ms.models.erase m ∧
    (delete_model ms m true).2.dirs = ms.dirs ∧
    (delete_protocol ps p true).1 = false ∧
    (delete_protocol ps p true).2.protocols = ps.protocols.erase p ∧
    (delete_protocol ps p true).2.dirs = ps.dirs ∧
    (delete_protocol ps p true).2.legacyFiles = ps.legacyFiles := by
  simp [delete_model, delete_protocol, hm, hmd, hp, hpd]

/-- Witness for C10 at concrete states: deleting `"a"` under an
injected `rmtree` failure returns `False` with the order already
rewritten. -/
theorem C10_delete_error_path_witness :
    (delete_model ⟨["a", "b"], ["a"]⟩ "a" true).1 = false ∧
    (delete_model ⟨["a", "b"], ["a"]⟩ "a" true).2.models = ["b"] ∧
    (delete_model ⟨["a", "b"], ["a"]⟩ "a" true).2.dirs = ["a"] ∧
    (delete_protocol ⟨["p", "q"], ["p"], ["p"]⟩ "p" true).1 = false ∧
    (delete_protocol ⟨["p", "q"], ["p"], ["p"]⟩ "p" true).2.protocols = ["q"] ∧
    (delete_protocol ⟨["p", "q"], ["p"], ["p"]⟩ "p" true).2.dirs = ["p"] ∧
    (delete_protocol ⟨["p", "q"], ["p"], ["p"]⟩ "p" true).2.legacyFiles = ["p"] := by
  have h := C10_delete_error_path ⟨["a", "b"], ["a"]⟩ ⟨["p", "q"], ["p"], ["p"]⟩
    "a" "p" (by decide) (by decide) (by decide) (by decide)
  revert h
  decide

/-- C1 counterexample: with stored versions `["2.0", "1.0"]` and stored
current `"9.9"` (not a member), `get_current_version` returns `"2.0"`,
the first element of the stored list, whereas the first version in
ascending `(major, minor)` sorted order is `"1.0"` — the claim is false
on this state. -/
theorem C1_counterexample :
    (get_current_version ⟨none, [], VFile.parsed ⟨some ["2.0", "1.0"], some "9.9"⟩⟩).1
      = "2.0" ∧
    sortVersions ["2.0", "1.0"] = ["1.0", "2.0"] ∧
    ("2.0" : String) ≠ "1.0" := by
  decide

/-- C1 (amended): when the parsed index has a non-empty `versions` list
that does not contain the stored `current`, `get_current_version`
returns the first element of the stored list in its stored order (not
the least version under the `(major, minor)` sort), and performs no
write. -/
theorem C1_current_fallback (s : ProtoState) (d : VersionsData)
    (hidx : s.index = VFile.parsed d)
    (hnm : d.getCurrent ∉ d.getVersions) (hne : d.getVersions ≠ []) :
    (get_current_version s).1 = d.getVersions.headD "" ∧
    (get_current_version s).2 = s := by
  simp [get_current_version, hidx, hnm, hne]

/-- Witness for C1 at the counterexample state: the fallback returns
the head `"2.0"` of the stored list. -/
theorem C1_current_fallback_witness :
    (get_current_version ⟨none, [], VFile.parsed ⟨some ["2.0", "1.0"], some "9.9"⟩⟩).1
      = "2.0" ∧
    (get_current_version ⟨none, [], VFile.parsed ⟨some ["2.0", "1.0"], some "9.9"⟩⟩).2
      = ⟨none, [], VFile.parsed ⟨some ["2.0", "1.0"], some "9.9"⟩⟩ := by
  have h := C1_current_fallback ⟨none, [], VFile.parsed ⟨some ["2.0", "1.0"], some "9.9"⟩⟩
    ⟨some ["2.0", "1.0"], some "9.9"⟩ rfl (by decide) (by decide)
  revert h
  decide

/-- C5: on a protocol whose index parses, `list_versions` returns a
permutation of the stored ids that is sorted ascending by the parsed
`(major, minor)` pair order, without writing anything. -/
theorem C5_list_versions_sorted (s : ProtoState) (d : VersionsData)
    (hidx : s.index = VFile.parsed d) :
    List.Perm (list_versions s).1 d.getVersions ∧
    (list_versions s).1.Pairwise (fun a b => versionLE a b = true) ∧
    (list_versions s).2 = s := by
  simp only [list_versions, hidx]
  exact ⟨sortVersions_perm _, sortVersions_sorted _, trivial⟩

/-- Witness for C5 at the spec's example: stored versions
`["1.2", "1.10", "1.1"]` are listed as `["1.1", "1.2", "1.10"]` —
numeric, not lexicographic, order. -/
theorem C5_list_versions_sorted_witness :
    (list_versions ⟨none, [], VFile.parsed ⟨some ["1.2", "1.10", "1.1"], some "1.1"⟩⟩).1
      = ["1.1", "1.2", "1.10"] ∧
    List.Perm
      (list_versions ⟨none, [], VFile.parsed ⟨some ["1.2", "1.10", "1.1"], some "1.1"⟩⟩).1
      ["1.2", "1.10", "1.1"] :=
  ⟨by decide,
    (C5_list_versions_sorted ⟨none, [], VFile.parsed ⟨some ["1.2", "1.10", "1.1"], some "1.1"⟩⟩
      ⟨some ["1.2", "1.10", "1.1"], some "1.1"⟩ rfl).1⟩

/-- C3: on a protocol whose index parses with a non-empty version list,
`create_new_version` takes the highest stored id under the
`(major, minor)` order (every stored id relates to it), returns the id
`"<major>.<minor+1>"` built from it (the `minor + 2` fallback for an
already-listed candidate never fires, since the candidate's key exceeds
the maximum), and persists the version list with that new id appended
(the stored list is rewritten in sorted order; the `current` key is
unchanged). -/
theorem C3_create_next_id (s : ProtoState) (d : VersionsData) (base : Option String)
    (hidx : s.index = VFile.parsed d) (hne : sortVersions d.getVersions ≠ []) :
    (∀ v ∈ d.getVersions,
      versionLE v ((sortVersions d.getVersions).getLastD "") = true) ∧
    (create_new_version s base).1 =
      some (mkVersion (parse_version ((sortVersions d.getVersions).getLastD "")).1
        ((parse_version ((sortVersions d.getVersions).getLastD "")).2 + 1)) ∧
    (create_new_version s base).2.index = VFile.parsed
      ⟨some (sortVersions d.getVersions ++
          [mkVersion (parse_version ((sortVersions d.getVersions).getLastD "")).1
            ((parse_version ((sortVersions d.getVersions).getLastD "")).2 + 1)]),
        d.current⟩ := by
  have hmax : ∀ v ∈ d.getVersions,
      versionLE v ((sortVersions d.getVersions).getLastD "") = true := by
    intro v hv
    exact pairwise_rel_getLastD versionLE_refl _ hne (sortVersions_sorted _) v
      ((sortVersions_perm d.getVersions).mem_iff.2 hv)
  have hnext := nextVersionId_spec (sortVersions d.getVersions) hne (sortVersions_sorted _)
  refine ⟨hmax, ?_, ?_⟩ <;>
    simp [create_new_version, hidx, hne, hnext.1]

/-- Witness for C3 at the spec's example: on stored versions
`["1.0", "1.1"]` the call returns `"1.2"` and persists
`["1.0", "1.1", "1.2"]`. -/
theorem C3_create_next_id_witness :
    (create_new_version
        ⟨none, [("1.0", "a"), ("1.1", "b")], VFile.parsed ⟨some ["1.0", "1.1"], some "1.1"⟩⟩
        none).1 = some "1.2" ∧
    (create_new_version
        ⟨none, [("1.0", "a"), ("1.1", "b")], VFile.parsed ⟨some ["1.0", "1.1"], some "1.1"⟩⟩
        none).2.index = VFile.parsed ⟨some ["1.0", "1.1", "1.2"], some "1.1"⟩ := by
  have h := C3_create_next_id
    ⟨none, [("1.0", "a"), ("1.1", "b")], VFile.parsed ⟨some ["1.0", "1.1"], some "1.1"⟩⟩
    ⟨some ["1.0", "1.1"], some "1.1"⟩ none rfl (by decide)
  exact ⟨h.2.1.trans (by decide), h.2.2.trans (by decide)⟩

/-- C4 counterexample: with one version `"1.0"` whose file holds
`"hello"` and which is current, calling `create_new_version` with the
absent base id `"9.9"` writes the empty string to the new `"1.1"` file,
not the current version's content — the claim's fallback to the current
version does not happen when a base id is given but missing. -/
theorem C4_counterexample :
    (create_new_version ⟨none, [("1.0", "hello")], VFile.parsed ⟨some ["1.0"], some "1.0"⟩⟩
      (some "9.9")).1 = some "1.1" ∧
    getFile (create_new_version
        ⟨none, [("1.0", "hello")], VFile.parsed ⟨some ["1.0"], some "1.0"⟩⟩
        (some "9.9")).2.vfiles "1.1" = some "" ∧
    (get_current_version
        ⟨none, [("1.0", "hello")], VFile.parsed ⟨some ["1.0"], some "1.0"⟩⟩).1 = "1.0" ∧
    getFile (⟨none, [("1.0", "hello")],
        VFile.parsed ⟨some ["1.0"], some "1.0"⟩⟩ : ProtoState).vfiles "1.0" = some "hello" ∧
    ("" : String) ≠ "hello" := by
  decide

/-- C4 (amended): the content written to the new version's file equals
the content of `base_version`'s file when `base_version` is given,
non-empty and present in the stored versions (empty if that file is
missing); equals the current version's file content when `base_version`
is `None`, where current is the stored `current` key defaulting to the
highest version (empty if that file is missing); and equals the empty
string when `base_version` is given but not present. -/
theorem C4_content_selection (s : ProtoState) (d : VersionsData) (base : Option String)
    (hidx : s.index = VFile.parsed d) (hne : sortVersions d.getVersions ≠ []) :
    ∀ v, (create_new_version s base).1 = some v →
      ((∀ bv, base = some bv → bv ≠ "" → bv ∈ d.getVersions →
        getFile (create_new_version s base).2.vfiles v =
          some ((getFile s.vfiles bv).getD "")) ∧
      (base = none →
        getFile (create_new_version s base).2.vfiles v =
          some ((getFile s.vfiles
            (d.current.getD ((sortVersions d.getVersions).getLastD ""))).getD "")) ∧
      (∀ bv, base = some bv → bv ∉ d.getVersions →
        getFile (create_new_version s base).2.vfiles v = some "")) := by
  intro v hv
  have hwrite : getFile (create_new_version s base).2.vfiles v =
      some (newContent s d (sortVersions d.getVersions) base) := by
    simp only [create_new_version, hidx, if_neg hne] at hv ⊢
    have hveq : v = nextVersionId (sortVersions d.getVersions) :=
      (Option.some.injEq _ _ ▸ hv).symm
    rw [hveq]
    exact getFile_setFile_self _ _ _
  refine ⟨?_, ?_, ?_⟩
  · rintro bv rfl hbv hmem
    rw [hwrite]
    simp [newContent, hbv, (sortVersions_perm d.getVersions).mem_iff.2 hmem]
  · rintro rfl
    rw [hwrite]
    simp [newContent]
  · rintro bv rfl hmem
    rw [hwrite]
    have : bv ∉ sortVersions d.getVersions :=
      fun h => hmem ((sortVersions_perm d.getVersions).mem_iff.1 h)
    simp [newContent, this]

/-- Witness for C4 at a concrete state: copying from an explicitly
given, present base version. -/
theorem C4_content_selection_witness :
    getFile (create_new_version
        ⟨none, [("1.0", "hello"), ("1.1", "world")],
          VFile.parsed ⟨some ["1.0", "1.1"], some "1.1"⟩⟩
        (some "1.0")).2.vfiles "1.2" = some "hello" := by
  have h := C4_content_selection
    ⟨none, [("1.0", "hello"), ("1.1", "world")],
      VFile.parsed ⟨some ["1.0", "1.1"], some "1.1"⟩⟩
    ⟨some ["1.0", "1.1"], some "1.1"⟩ (some "1.0") rfl (by decide)
    "1.2" (by decide)
  have h2 := h.1 "1.0" rfl (by decide) (by decide)
  revert h2
  decide

/-- C2: starting from a state whose parsed index satisfies the
invariant (`current` listed whenever `versions` is non-empty, no
duplicate ids), the index produced or rewritten by
`ensure_protocol_versions`, `set_current_version`, and
`create_new_version` satisfies the invariant again. -/
theorem C2_invariant_preserved (s : ProtoState) (v : String) (base : Option String)
    (hs : StateInv s) :
    StateInv (ensure_protocol_versions s) ∧
    StateInv (set_current_version s v).2 ∧
    StateInv (create_new_version s base).2 := by
  refine ⟨?_, ?_, ?_⟩
  · cases hidx : s.index with
    | parsed d0 =>
      rw [show ensure_protocol_versions s = s by simp [ensure_protocol_versions, hidx]]
      exact hs
    | corrupt =>
      rw [show ensure_protocol_versions s = s by simp [ensure_protocol_versions, hidx]]
      exact hs
    | absent =>
      intro d hd
      have hd' : (⟨some ["1.0"], some "1.0"⟩ : VersionsData) = d := by
        cases hleg : s.legacy <;> simpa [ensure_protocol_versions, hidx, hleg] using hd
      subst hd'
      exact ⟨fun _ => by decide, by decide⟩
  · cases hidx : s.index with
    | absent =>
      rw [show (set_current_version s v).2 = s by simp [set_current_version, hidx]]
      exact hs
    | corrupt =>
      rw [show (set_current_version s v).2 = s by simp [set_current_version, hidx]]
      exact hs
    | parsed d0 =>
      by_cases hmem : v ∈ d0.getVersions
      · intro d hd
        simp only [set_current_version, hidx, if_pos hmem] at hd
        simp only [VFile.parsed.injEq] at hd
        subst hd
        exact ⟨fun _ => by simpa [VersionsData.getCurrent, VersionsData.getVersions]
          using hmem, (hs d0 hidx).2⟩
      · intro d hd
        simp only [set_current_version, hidx, if_neg hmem] at hd
        simp only [VFile.parsed.injEq] at hd
        subst hd
        exact hs d0 hidx
  · cases hidx : s.index with
    | absent =>
      rw [show (create_new_version s base).2 = s by simp [create_new_version, hidx]]
      exact hs
    | corrupt =>
      rw [show (create_new_version s base).2 = s by simp [create_new_version, hidx]]
      exact hs
    | parsed d0 =>
      by_cases hne : sortVersions d0.getVersions = []
      · rw [show (create_new_version s base).2 = s by
          simp [create_new_version, hidx, hne]]
        exact hs
      · intro d hd
        have hnext := nextVersionId_spec (sortVersions d0.getVersions) hne
          (sortVersions_sorted _)
        simp only [create_new_version, hidx, if_neg hne] at hd
        simp only [VFile.parsed.injEq] at hd
        subst hd
        have h0 := hs d0 hidx
        have horig : d0.getVersions ≠ [] := by
          intro h
          exact hne (by rw [h]; rfl)
        have hcur : d0.getCurrent ∈ sortVersions d0.getVersions :=
          (sortVersions_perm _).mem_iff.2 (h0.1 horig)
        have hnodup : (sortVersions d0.getVersions).Nodup :=
          ((sortVersions_perm _).nodup_iff).2 h0.2
        refine ⟨fun _ => List.mem_append_left _ hcur, ?_⟩
        exact ((List.perm_append_singleton _ _).nodup_iff).2
          (List.nodup_cons.2 ⟨hnext.2, hnodup⟩)

/-- Witness for C2 at a concrete state with a single version: the
invariant holds before and after each of the three operations. -/
theorem C2_invariant_preserved_witness :
    StateInv ⟨none, [("1.0", "x")], VFile.parsed ⟨some ["1.0"], some "1.0"⟩⟩ ∧
    (StateInv (ensure_protocol_versions
        ⟨none, [("1.0", "x")], VFile.parsed ⟨some ["1.0"], some "1.0"⟩⟩) ∧
      StateInv (set_current_version
        ⟨none, [("1.0", "x")], VFile.parsed ⟨some ["1.0"], some "1.0"⟩⟩ "1.0").2 ∧
      StateInv (create_new_version
        ⟨none, [("1.0", "x")], VFile.parsed ⟨some ["1.0"], some "1.0"⟩⟩ none).2) := by
  have hinv : StateInv ⟨none, [("1.0", "x")], VFile.parsed ⟨some ["1.0"], some "1.0"⟩⟩ := by
    intro d hd
    injection hd with h
    subst h
    exact ⟨fun _ => by decide, by decide⟩
  exact ⟨hinv, C2_invariant_preserved _ "1.0" none hinv⟩

end ProtocolStore
